import Mathlib

/-!
Shallow embedding of the scheduling helpers of
`staging/src/k8s.io/component-helpers/scheduling/corev1/helpers.go`:
the resource aggregator (`PodRequests`, `PodLimits` with their helpers
`addResourceList`, `maxResourceList`, `reuseOrClearResourceList`) and the
taint matcher (`TolerationsTolerateTaint`, `FindMatchingUntoleratedTaint`,
`getFilteredTaints`).

A Go `v1.ResourceList` is a map from resource name to quantity; we embed it
as an association list with unique keys (Go maps cannot hold a key twice;
where a proof needs that fact it carries an explicit `Nodup` hypothesis).
A `resource.Quantity` is an arbitrary-precision decimal with addition,
comparison, a zero test and deep copy; we embed it as `Int` (deep copy is
the identity on values).  Go map iteration order is unspecified; the
embedding fixes the association-list order, which never changes the
contents of the results proved about here.
-/

namespace K8s

abbrev ResourceName := String

abbrev Quantity := Int

/-- `v1.ResourceList`: a finite map from resource name to quantity,
embedded as an association list. -/
abbrev ResourceList := List (ResourceName × Quantity)

/-- Map lookup: `value, ok := list[name]` (`some` iff `ok`).  Generic in the
value type so the same primitive serves the value model (`Quantity`) and the
allocation-tracking model below. -/
def lookupResource {α : Type} : List (ResourceName × α) → ResourceName → Option α
  | [], _ => none
  | (k, v) :: rest, n => if k = n then some v else lookupResource rest n

/-- Map store: `list[name] = q` (overwrite the entry if present,
append it otherwise). -/
def setResource {α : Type} : List (ResourceName × α) → ResourceName → α → List (ResourceName × α)
  | [], n, q => [(n, q)]
  | (k, v) :: rest, n, q =>
    if k = n then (n, q) :: rest else (k, v) :: setResource rest n q

/-- Map delete: `delete(list, name)`. -/
def deleteResource {α : Type} : List (ResourceName × α) → ResourceName → List (ResourceName × α)
  | [], _ => []
  | (k, v) :: rest, n =>
    if k = n then deleteResource rest n else (k, v) :: deleteResource rest n

/-- `addResourceList(list, newList)`: for each entry of `newList`, insert a
deep copy when the name is absent from `list`, otherwise add the quantity
to the present value and store the sum back. -/
def addResourceList (list newList : ResourceList) : ResourceList :=
  newList.foldl
    (fun acc nq =>
      match lookupResource acc nq.1 with
      | none => setResource acc nq.1 nq.2
      | some value => setResource acc nq.1 (value + nq.2))
    list

/-- `maxResourceList(list, newList)`: for each entry of `newList`, store a
deep copy of the new quantity when the name is absent from `list` or the
new quantity compares strictly greater (`quantity.Cmp(value) > 0`);
otherwise leave the entry unchanged. -/
def maxResourceList (list newList : ResourceList) : ResourceList :=
  newList.foldl
    (fun acc nq =>
      match lookupResource acc nq.1 with
      | none => setResource acc nq.1 nq.2
      | some value => if nq.2 > value then setResource acc nq.1 nq.2 else acc)
    list

/-- `reuseOrClearResourceList(reuse)`: allocate a fresh map when `reuse` is
nil; otherwise delete every key of `reuse` in place and return it. -/
def reuseOrClearResourceList {α : Type} :
    Option (List (ResourceName × α)) → List (ResourceName × α)
  | none => []
  | some reuse => (reuse.map Prod.fst).foldl deleteResource reuse

/-- `v1.ResourceRequirements`: the requests and limits of one container. -/
structure ResourceRequirements where
  requests : ResourceList
  limits : ResourceList
deriving Repr, DecidableEq

/-- `v1.Container`, restricted to the field the aggregator reads. -/
structure Container where
  resources : ResourceRequirements
deriving Repr, DecidableEq

/-- `v1.PodSpec`, restricted to the fields the aggregator reads.
`overhead` is `none` for a nil Go map (overhead not declared). -/
structure PodSpec where
  containers : List Container
  initContainers : List Container
  overhead : Option ResourceList
deriving Repr, DecidableEq

/-- `v1.Pod`, restricted to its spec. -/
structure Pod where
  spec : PodSpec
deriving Repr, DecidableEq

/-- `ContainerType`. -/
abbrev ContainerType := Nat

def ContainerTypeContainers : ContainerType := 1

def ContainerTypeInitContainers : ContainerType := 2

/-- `PodResourcesOptions`.  `containerFn` returns `Unit`: the observer is a
side channel and cannot change the computed list. -/
structure PodResourcesOptions where
  reuse : Option ResourceList := none
  excludeOverhead : Bool := false
  containerFn : Option (ResourceList → ContainerType → Unit) := none

/-- `PodRequests(pod, opts)`: clear-or-allocate the accumulator, sum the
regular containers' requests into it, max-merge the init containers'
requests, then add the pod overhead when it is declared and not excluded.
A nil `opts` (`none`) behaves as the zero-value options. -/
def PodRequests (pod : Pod) (opts : Option PodResourcesOptions) : ResourceList :=
  let o := opts.getD {}
  let reqs := reuseOrClearResourceList o.reuse
  let reqs := pod.spec.containers.foldl
    (fun acc container => addResourceList acc container.resources.requests) reqs
  let reqs := pod.spec.initContainers.foldl
    (fun acc container => maxResourceList acc container.resources.requests) reqs
  if !o.excludeOverhead && pod.spec.overhead.isSome then
    addResourceList reqs (pod.spec.overhead.getD [])
  else
    reqs

/-- The overhead loop of `PodLimits`: for each overhead entry, only when
the accumulator holds the name with a non-zero value (`ok && !value.IsZero()`)
add the overhead quantity to it and store the sum back. -/
def addOverheadToNonZeroLimits (limits overhead : ResourceList) : ResourceList :=
  overhead.foldl
    (fun acc nq =>
      match lookupResource acc nq.1 with
      | none => acc
      | some value =>
        if value ≠ 0 then setResource acc nq.1 (value + nq.2) else acc)
    limits

/-- `PodLimits(pod, opts)`: clear-or-allocate the accumulator, sum the
regular containers' limits into it, max-merge the init containers' limits,
then add the overhead to the non-zero limits when it is declared and not
excluded.  A nil `opts` (`none`) behaves as the zero-value options. -/
def PodLimits (pod : Pod) (opts : Option PodResourcesOptions) : ResourceList :=
  let o := opts.getD {}
  let limits := reuseOrClearResourceList o.reuse
  let limits := pod.spec.containers.foldl
    (fun acc container => addResourceList acc container.resources.limits) limits
  let limits := pod.spec.initContainers.foldl
    (fun acc container => maxResourceList acc container.resources.limits) limits
  if !o.excludeOverhead && pod.spec.overhead.isSome then
    addOverheadToNonZeroLimits limits (pod.spec.overhead.getD [])
  else
    limits

/-- `v1.Taint`: key, value, effect (a string-valued enum; the zero value is
the empty string) and the timestamp metadata ignored by matching. -/
structure Taint where
  key : String := ""
  value : String := ""
  effect : String := ""
  timeAdded : Option Nat := none
deriving Repr, DecidableEq

/-- The zero-value taint returned when no untolerated taint is found. -/
def Taint.zero : Taint := {}

/-- `v1.Toleration`: as the spec notes, the toleration-match rule
`ToleratesTaint` is an external primitive assumed given, so a toleration is
embedded as the predicate it bears over taints. -/
def Toleration := Taint → Bool

/-- `toleration.ToleratesTaint(taint)`: apply the external match rule. -/
def Toleration.toleratesTaint (t : Toleration) (taint : Taint) : Bool :=
  t taint

/-- `TolerationsTolerateTaint(tolerations, taint)`: scan the tolerations in
order and return true at the first one that tolerates the taint, false when
none does. -/
def TolerationsTolerateTaint : List Toleration → Taint → Bool
  | [], _ => false
  | t :: rest, taint =>
    if t.toleratesTaint taint then true else TolerationsTolerateTaint rest taint

/-- `taintsFilterFunc`; a nil Go function value is `none`. -/
abbrev TaintsFilterFunc := Option (Taint → Bool)

/-- `getFilteredTaints(taints, inclusionFilter)`: return `taints` itself for
a nil filter, otherwise the taints the filter accepts, in order. -/
def getFilteredTaints (taints : List Taint) (inclusionFilter : TaintsFilterFunc) :
    List Taint :=
  match inclusionFilter with
  | none => taints
  | some filt => taints.foldl (fun acc taint => if filt taint then acc ++ [taint] else acc) []

/-- The scan loop of `FindMatchingUntoleratedTaint`: return the first taint
of the list not tolerated by `tolerations` with `true`, or the zero taint
with `false`. -/
def findUntolerated (tolerations : List Toleration) : List Taint → Taint × Bool
  | [] => (Taint.zero, false)
  | taint :: rest =>
    if !TolerationsTolerateTaint tolerations taint then (taint, true)
    else findUntolerated tolerations rest

/-- `FindMatchingUntoleratedTaint(taints, tolerations, inclusionFilter)`. -/
def FindMatchingUntoleratedTaint (taints : List Taint) (tolerations : List Toleration)
    (inclusionFilter : TaintsFilterFunc) : Taint × Bool :=
  findUntolerated tolerations (getFilteredTaints taints inclusionFilter)

/-! ### Spec-side combinators used to state the aggregation claims -/

/-- Pointwise addition on optional quantities: absent entries contribute
nothing, and an entry absent on one side is copied from the other. -/
def optAdd : Option Quantity → Option Quantity → Option Quantity
  | none, b => b
  | some v, none => some v
  | some v, some q => some (v + q)

/-- Pointwise maximum on optional quantities. -/
def optMax : Option Quantity → Option Quantity → Option Quantity
  | none, b => b
  | some v, none => some v
  | some v, some q => some (max v q)

/-- The per-name effect of the limits overhead rule: a missing limit stays
missing, a zero limit is untouched, a non-zero limit grows by the overhead. -/
def applyOverheadAt : Option Quantity → Option Quantity → Option Quantity
  | none, _ => none
  | some v, none => some v
  | some v, some q => if v ≠ 0 then some (v + q) else some v

/-- The element-wise sum, at one resource name, of the requests of a list
of containers. -/
def sumRequestsAt (cs : List Container) (n : ResourceName) : Option Quantity :=
  cs.foldr (fun c acc => optAdd (lookupResource c.resources.requests n) acc) none

/-! ### Allocation-tracking model

The value model above identifies a `resource.Quantity` with its numeric
value, which cannot express the aliasing facts of the copy-isolation claim.
This second embedding of the same Go functions represents each `Quantity`
as a reference (`QRef`) into a heap of numeric cells: `DeepCopy` allocates
a fresh cell holding the same value, and `Add` writes the receiver's cell.
It follows the source line by line — where `helpers.go` stores
`quantity.DeepCopy()` the model allocates, and where it does
`value.Add(quantity); list[name] = value` the model writes the cell already
held by the accumulator. -/

/-- A reference to one `Quantity` cell. -/
abbrev QRef := Nat

/-- The quantity heap: cell values plus the next fresh reference. -/
structure Heap where
  store : Nat → Quantity
  next : Nat

/-- `DeepCopy`: allocate a fresh cell holding value `v`. -/
def Heap.alloc (h : Heap) (v : Quantity) : QRef × Heap :=
  (h.next, ⟨fun i => if i = h.next then v else h.store i, h.next + 1⟩)

/-- `Add` (in-place): overwrite the cell at `r` with `v`. -/
def Heap.write (h : Heap) (r : QRef) (v : Quantity) : Heap :=
  ⟨fun i => if i = r then v else h.store i, h.next⟩

/-- A `ResourceList` whose quantities are heap references. -/
abbrev ResourceListH := List (ResourceName × QRef)

/-- The references held by a resource list. -/
def refsOf (l : ResourceListH) : List QRef :=
  l.map Prod.snd

/-- `addResourceList` on the allocation-tracking model: an absent name gets
a fresh deep copy of the new quantity; a present name keeps its cell, whose
value is overwritten with the sum. -/
def addResourceListH (list newList : ResourceListH) (h : Heap) : ResourceListH × Heap :=
  newList.foldl
    (fun p nq =>
      match lookupResource p.1 nq.1 with
      | none =>
        let rh := p.2.alloc (p.2.store nq.2)
        (setResource p.1 nq.1 rh.1, rh.2)
      | some r =>
        (setResource p.1 nq.1 r, p.2.write r (p.2.store r + p.2.store nq.2)))
    (list, h)

/-- `maxResourceList` on the allocation-tracking model: when the name is
absent or the new quantity is strictly greater, store a fresh deep copy of
the new quantity. -/
def maxResourceListH (list newList : ResourceListH) (h : Heap) : ResourceListH × Heap :=
  newList.foldl
    (fun p nq =>
      match lookupResource p.1 nq.1 with
      | none =>
        let rh := p.2.alloc (p.2.store nq.2)
        (setResource p.1 nq.1 rh.1, rh.2)
      | some r =>
        if p.2.store nq.2 > p.2.store r then
          let rh := p.2.alloc (p.2.store nq.2)
          (setResource p.1 nq.1 rh.1, rh.2)
        else p)
    (list, h)

/-- The limits overhead loop on the allocation-tracking model: a present
non-zero limit keeps its cell, whose value grows by the overhead. -/
def addOverheadToNonZeroLimitsH (limits overhead : ResourceListH) (h : Heap) :
    ResourceListH × Heap :=
  overhead.foldl
    (fun p nq =>
      match lookupResource p.1 nq.1 with
      | none => p
      | some r =>
        if p.2.store r ≠ 0 then
          (setResource p.1 nq.1 r, p.2.write r (p.2.store r + p.2.store nq.2))
        else p)
    (limits, h)

/-- Container resources in the allocation-tracking model. -/
structure ResourceRequirementsH where
  requests : ResourceListH
  limits : ResourceListH

/-- A container in the allocation-tracking model. -/
structure ContainerH where
  resources : ResourceRequirementsH

/-- A pod spec in the allocation-tracking model. -/
structure PodSpecH where
  containers : List ContainerH
  initContainers : List ContainerH
  overhead : Option ResourceListH

/-- A pod in the allocation-tracking model. -/
structure PodH where
  spec : PodSpecH

/-- Options in the allocation-tracking model. -/
structure PodResourcesOptionsH where
  reuse : Option ResourceListH := none
  excludeOverhead : Bool := false

/-- Every reference reachable from the pod's input resource lists
(container requests and limits, pod overhead). -/
def podRefs (pod : PodH) : List QRef :=
  ((pod.spec.containers ++ pod.spec.initContainers).map
    (fun c => refsOf c.resources.requests ++ refsOf c.resources.limits)).flatten
    ++ refsOf (pod.spec.overhead.getD [])

/-- `PodRequests` on the allocation-tracking model. -/
def PodRequestsH (pod : PodH) (opts : Option PodResourcesOptionsH) (h : Heap) :
    ResourceListH × Heap :=
  let o := opts.getD {}
  let p := (reuseOrClearResourceList o.reuse, h)
  let p := pod.spec.containers.foldl
    (fun p container => addResourceListH p.1 container.resources.requests p.2) p
  let p := pod.spec.initContainers.foldl
    (fun p container => maxResourceListH p.1 container.resources.requests p.2) p
  if !o.excludeOverhead && pod.spec.overhead.isSome then
    addResourceListH p.1 (pod.spec.overhead.getD []) p.2
  else
    p

/-- `PodLimits` on the allocation-tracking model. -/
def PodLimitsH (pod : PodH) (opts : Option PodResourcesOptionsH) (h : Heap) :
    ResourceListH × Heap :=
  let o := opts.getD {}
  let p := (reuseOrClearResourceList o.reuse, h)
  let p := pod.spec.containers.foldl
    (fun p container => addResourceListH p.1 container.resources.limits p.2) p
  let p := pod.spec.initContainers.foldl
    (fun p container => maxResourceListH p.1 container.resources.limits p.2) p
  if !o.excludeOverhead && pod.spec.overhead.isSome then
    addOverheadToNonZeroLimitsH p.1 (pod.spec.overhead.getD []) p.2
  else
    p

/-- The frame-and-freshness contract of one aggregation step starting at
heap `h`, with `n0` the boundary below which all input cells live: the heap
only grows, cells below `n0` keep their values, and every reference in the
produced accumulator lies in the fresh region `[n0, next)`. -/
def StepOK (n0 : Nat) (h : Heap) (p : ResourceListH × Heap) : Prop :=
  h.next ≤ p.2.next ∧
  (∀ i, i < n0 → p.2.store i = h.store i) ∧
  (∀ r ∈ refsOf p.1, n0 ≤ r ∧ r < p.2.next)

/-! ### Concrete examples (from the specified test properties) -/

/-- A pod with one container limiting cpu to 2 and mem to 0, declaring
overhead cpu 1, mem 1. -/
def limitsExamplePod : Pod :=
  ⟨⟨[⟨⟨[], [("cpu", 2), ("mem", 0)]⟩⟩], [], some [("cpu", 1), ("mem", 1)]⟩⟩

/-- Regular containers requesting cpu 1 / mem 1Gi and cpu 2, one init
container requesting cpu 5, no overhead. -/
def mixedExamplePod : Pod :=
  ⟨⟨[⟨⟨[("cpu", 1), ("mem", 1073741824)], []⟩⟩, ⟨⟨[("cpu", 2)], []⟩⟩],
    [⟨⟨[("cpu", 5)], []⟩⟩], none⟩⟩

/-- Two regular containers, no init containers, overhead cpu 10. -/
def sumExamplePod : Pod :=
  ⟨⟨[⟨⟨[("cpu", 1)], []⟩⟩, ⟨⟨[("cpu", 2), ("mem", 3)], []⟩⟩], [],
    some [("cpu", 10)]⟩⟩

/-- A pod whose only container requests cpu 0 and limits mem 0. -/
def zeroExamplePod : Pod :=
  ⟨⟨[⟨⟨[("cpu", 0)], [("mem", 0)]⟩⟩], [], none⟩⟩

/-- Taint A with effect NoSchedule. -/
def taintA : Taint :=
  ⟨"keyA", "", "NoSchedule", none⟩

/-- Taint B with effect NoExecute. -/
def taintB : Taint :=
  ⟨"keyB", "", "NoExecute", none⟩

/-- A toleration tolerating exactly the taints with key B. -/
def tolerateOnlyB : Toleration :=
  fun t => t.key == "keyB"

/-- A toleration tolerating no taint at all. -/
def tolerateNothing : Toleration :=
  fun _ => false

/-- The inclusion filter keeping only NoExecute taints. -/
def noExecuteFilter : Taint → Bool :=
  fun t => t.effect == "NoExecute"

/-- An allocation-tracking pod: one container with request cpu at cell 0
and limit cpu at cell 1, overhead mem at cell 2. -/
def heapExamplePod : PodH :=
  ⟨⟨[⟨⟨[("cpu", 0)], [("cpu", 1)]⟩⟩], [], some [("mem", 2)]⟩⟩

/-- A heap whose first three cells hold 10, 20, 30 and whose fresh region
starts at 3. -/
def heapExample : Heap :=
  ⟨fun i => 10 * (1 + (i : Int)), 3⟩

/-! ## Association-list lemmas -/

theorem lookupResource_setResource_self {α : Type} (l : List (ResourceName × α))
    (n : ResourceName) (q : α) :
    lookupResource (setResource l n q) n = some q := by
  induction l with
  | nil => simp [setResource, lookupResource]
  | cons kv rest ih =>
    obtain ⟨k, v⟩ := kv
    by_cases h : k = n
    · simp [setResource, h, lookupResource]
    · simp [setResource, h, lookupResource, ih]

theorem lookupResource_setResource_ne {α : Type} (l : List (ResourceName × α))
    {m n : ResourceName} (q : α) (hmn : m ≠ n) :
    lookupResource (setResource l n q) m = lookupResource l m := by
  induction l with
  | nil =>
    simp only [setResource, lookupResource]
    rw [if_neg (fun e => hmn e.symm)]
  | cons kv rest ih =>
    obtain ⟨k, v⟩ := kv
    simp only [setResource]
    by_cases h : k = n
    · rw [if_pos h]
      simp only [lookupResource]
      rw [if_neg (fun e => hmn e.symm), if_neg (fun e => hmn (by rw [← e, h]))]
    · rw [if_neg h]
      simp only [lookupResource]
      by_cases hk : k = m
      · rw [if_pos hk, if_pos hk]
      · rw [if_neg hk, if_neg hk]
        exact ih

theorem mem_deleteResource {α : Type} {l : List (ResourceName × α)}
    {n : ResourceName} {p : ResourceName × α} :
    p ∈ deleteResource l n → p ∈ l ∧ p.1 ≠ n := by
  induction l with
  | nil =>
    intro hp
    simp [deleteResource] at hp
  | cons kv rest ih =>
    obtain ⟨k, v⟩ := kv
    intro hp
    by_cases h : k = n
    · rw [deleteResource, if_pos h] at hp
      obtain ⟨h1, h2⟩ := ih hp
      exact ⟨List.mem_cons_of_mem _ h1, h2⟩
    · rw [deleteResource, if_neg h] at hp
      rw [List.mem_cons] at hp
      rcases hp with hp | hp
      · refine ⟨by rw [hp]; exact List.mem_cons_self _ _, ?_⟩
        rw [hp]
        exact h
      · obtain ⟨h1, h2⟩ := ih hp
        exact ⟨List.mem_cons_of_mem _ h1, h2⟩

theorem foldl_deleteResource_eq_nil {α : Type} :
    ∀ (ks : List ResourceName) (l : List (ResourceName × α)),
      (∀ p ∈ l, p.1 ∈ ks) → ks.foldl deleteResource l = [] := by
  intro ks
  induction ks with
  | nil =>
    intro l h
    cases l with
    | nil => rfl
    | cons p rest => exact absurd (h p (List.mem_cons_self _ _)) (by simp)
  | cons k ks ih =>
    intro l h
    simp only [List.foldl_cons]
    refine ih (deleteResource l k) ?_
    intro p hp
    obtain ⟨hmem, hne⟩ := mem_deleteResource hp
    have hm := h p hmem
    rw [List.mem_cons] at hm
    rcases hm with h1 | h1
    · exact absurd h1 hne
    · exact h1

/-- Clearing Go-style (deleting every key during iteration) empties the
map, whether or not a reuse map was supplied. -/
theorem reuseOrClearResourceList_eq_nil {α : Type}
    (o : Option (List (ResourceName × α))) :
    reuseOrClearResourceList o = [] := by
  cases o with
  | none => rfl
  | some reuse =>
    exact foldl_deleteResource_eq_nil _ reuse
      (fun p hp => List.mem_map_of_mem Prod.fst hp)

theorem lookupResource_eq_none_of_not_mem {α : Type}
    {l : List (ResourceName × α)} {n : ResourceName} :
    n ∉ l.map Prod.fst → lookupResource l n = none := by
  induction l with
  | nil => intro _; rfl
  | cons kv rest ih =>
    obtain ⟨k, v⟩ := kv
    intro h
    simp only [List.map_cons, List.mem_cons] at h
    push_neg at h
    rw [lookupResource, if_neg (fun e => h.1 e.symm)]
    exact ih h.2

theorem lookupResource_mem_snd {α : Type} {l : List (ResourceName × α)}
    {n : ResourceName} {v : α} (h : lookupResource l n = some v) :
    v ∈ l.map Prod.snd := by
  induction l with
  | nil => simp [lookupResource] at h
  | cons kv rest ih =>
    obtain ⟨k, w⟩ := kv
    by_cases hk : k = n
    · simp only [lookupResource, if_pos hk, Option.some.injEq] at h
      subst h
      simp
    · simp only [lookupResource, if_neg hk] at h
      simpa using Or.inr (List.mem_map.mp (ih h))

theorem snd_setResource_subset {α : Type} {l : List (ResourceName × α)}
    {n : ResourceName} {q v : α} :
    v ∈ (setResource l n q).map Prod.snd → v ∈ l.map Prod.snd ∨ v = q := by
  induction l with
  | nil =>
    intro h
    simp only [setResource, List.map_cons, List.map_nil, List.mem_singleton] at h
    exact Or.inr h
  | cons kv rest ih =>
    obtain ⟨k, w⟩ := kv
    intro h
    by_cases hk : k = n
    · rw [setResource, if_pos hk] at h
      simp only [List.map_cons, List.mem_cons] at h
      rcases h with h | h
      · exact Or.inr h
      · exact Or.inl (by simp only [List.map_cons, List.mem_cons]; exact Or.inr h)
    · rw [setResource, if_neg hk] at h
      simp only [List.map_cons, List.mem_cons] at h
      rcases h with h | h
      · exact Or.inl (by simp only [List.map_cons, List.mem_cons]; exact Or.inl h)
      · rcases ih h with h1 | h1
        · exact Or.inl (by simp only [List.map_cons, List.mem_cons]; exact Or.inr h1)
        · exact Or.inr h1

theorem lookupResource_isSome_setResource {α : Type}
    (l : List (ResourceName × α)) (m n : ResourceName) (q : α)
    (h : (lookupResource l m).isSome) :
    (lookupResource (setResource l n q) m).isSome := by
  by_cases hmn : m = n
  · subst hmn
    simp [lookupResource_setResource_self]
  · rw [lookupResource_setResource_ne l q hmn]
    exact h

theorem lookupResource_setResource {α : Type} (l : List (ResourceName × α))
    (m n : ResourceName) (q : α) :
    lookupResource (setResource l m q) n =
      if n = m then some q else lookupResource l n := by
  by_cases h : n = m
  · rw [if_pos h, h, lookupResource_setResource_self]
  · rw [if_neg h, lookupResource_setResource_ne l q h]

/-! ## Value-model characterizations of the aggregation helpers -/

theorem optAdd_none_right (a : Option Quantity) : optAdd a none = a := by
  cases a <;> rfl

theorem optAdd_assoc (a b c : Option Quantity) :
    optAdd (optAdd a b) c = optAdd a (optAdd b c) := by
  cases a <;> cases b <;> cases c <;> simp [optAdd, add_assoc]

theorem optMax_none_right (a : Option Quantity) : optMax a none = a := by
  cases a <;> rfl

/-- The per-name value of `addResourceList`: looking up any name in the
merged list yields the pointwise sum of the two lookups. -/
theorem lookupResource_addResourceList :
    ∀ (newList list : ResourceList), (newList.map Prod.fst).Nodup →
      ∀ n, lookupResource (addResourceList list newList) n =
        optAdd (lookupResource list n) (lookupResource newList n) := by
  intro newList
  induction newList with
  | nil =>
    intro l _ n
    rw [show addResourceList l [] = l from rfl]
    rw [show lookupResource ([] : ResourceList) n = none from rfl, optAdd_none_right]
  | cons kq rest ih =>
    obtain ⟨k, q⟩ := kq
    intro l hnd n
    rw [List.map_cons, List.nodup_cons] at hnd
    cases hl : lookupResource l k with
    | none =>
      have step : addResourceList l ((k, q) :: rest) =
          addResourceList (setResource l k q) rest := by
        simp only [addResourceList, List.foldl_cons, hl]
      rw [step, ih _ hnd.2 n, lookupResource_setResource]
      by_cases hn : n = k
      · subst hn
        rw [if_pos rfl, lookupResource_eq_none_of_not_mem hnd.1, hl]
        simp only [lookupResource, if_pos rfl]
        rfl
      · rw [if_neg hn]
        have : lookupResource ((k, q) :: rest) n = lookupResource rest n := by
          simp only [lookupResource]
          rw [if_neg (fun e => hn e.symm)]
        rw [this]
    | some v =>
      have step : addResourceList l ((k, q) :: rest) =
          addResourceList (setResource l k (v + q)) rest := by
        simp only [addResourceList, List.foldl_cons, hl]
      rw [step, ih _ hnd.2 n, lookupResource_setResource]
      by_cases hn : n = k
      · subst hn
        rw [if_pos rfl, lookupResource_eq_none_of_not_mem hnd.1, hl]
        simp only [lookupResource, if_pos rfl]
        rfl
      · rw [if_neg hn]
        have : lookupResource ((k, q) :: rest) n = lookupResource rest n := by
          simp only [lookupResource]
          rw [if_neg (fun e => hn e.symm)]
        rw [this]

/-- The per-name value of `maxResourceList`: looking up any name in the
merged list yields the pointwise maximum of the two lookups. -/
theorem lookupResource_maxResourceList :
    ∀ (newList list : ResourceList), (newList.map Prod.fst).Nodup →
      ∀ n, lookupResource (maxResourceList list newList) n =
        optMax (lookupResource list n) (lookupResource newList n) := by
  intro newList
  induction newList with
  | nil =>
    intro l _ n
    rw [show maxResourceList l [] = l from rfl]
    rw [show lookupResource ([] : ResourceList) n = none from rfl, optMax_none_right]
  | cons kq rest ih =>
    obtain ⟨k, q⟩ := kq
    intro l hnd n
    rw [List.map_cons, List.nodup_cons] at hnd
    have tail_eq : ∀ m, m ≠ k →
        lookupResource ((k, q) :: rest) m = lookupResource rest m := by
      intro m hm
      simp only [lookupResource]
      rw [if_neg (fun e => hm e.symm)]
    cases hl : lookupResource l k with
    | none =>
      have step : maxResourceList l ((k, q) :: rest) =
          maxResourceList (setResource l k q) rest := by
        simp only [maxResourceList, List.foldl_cons, hl]
      rw [step, ih _ hnd.2 n, lookupResource_setResource]
      by_cases hn : n = k
      · subst hn
        rw [if_pos rfl, lookupResource_eq_none_of_not_mem hnd.1, hl]
        simp only [lookupResource, if_pos rfl]
        rfl
      · rw [if_neg hn, tail_eq n hn]
    | some v =>
      by_cases hgt : q > v
      · have step : maxResourceList l ((k, q) :: rest) =
            maxResourceList (setResource l k q) rest := by
          simp only [maxResourceList, List.foldl_cons, hl, if_pos hgt]
        rw [step, ih _ hnd.2 n, lookupResource_setResource]
        by_cases hn : n = k
        · subst hn
          have hcons : lookupResource ((n, q) :: rest) n = some q := by
            simp [lookupResource]
          rw [if_pos rfl, lookupResource_eq_none_of_not_mem hnd.1, hl, hcons,
            optMax_none_right]
          simp [optMax, max_eq_right hgt.le]
        · rw [if_neg hn, tail_eq n hn]
      · have step : maxResourceList l ((k, q) :: rest) =
            maxResourceList l rest := by
          simp only [maxResourceList, List.foldl_cons, hl, if_neg hgt]
        rw [step, ih _ hnd.2 n]
        by_cases hn : n = k
        · subst hn
          have hcons : lookupResource ((n, q) :: rest) n = some q := by
            simp [lookupResource]
          rw [lookupResource_eq_none_of_not_mem hnd.1, hl, hcons, optMax_none_right]
          simp [optMax, max_eq_left (le_of_not_lt hgt)]
        · rw [tail_eq n hn]

/-- The per-name value of the limits overhead loop: a missing limit stays
missing, a zero limit is untouched, a non-zero limit grows by the
overhead. -/
theorem lookupResource_addOverheadToNonZeroLimits :
    ∀ (overhead list : ResourceList), (overhead.map Prod.fst).Nodup →
      ∀ n, lookupResource (addOverheadToNonZeroLimits list overhead) n =
        applyOverheadAt (lookupResource list n) (lookupResource overhead n) := by
  intro overhead
  induction overhead with
  | nil =>
    intro l _ n
    rw [show addOverheadToNonZeroLimits l [] = l from rfl]
    cases hl : lookupResource l n <;> rfl
  | cons kq rest ih =>
    obtain ⟨k, q⟩ := kq
    intro l hnd n
    rw [List.map_cons, List.nodup_cons] at hnd
    have tail_eq : ∀ m, m ≠ k →
        lookupResource ((k, q) :: rest) m = lookupResource rest m := by
      intro m hm
      simp only [lookupResource]
      rw [if_neg (fun e => hm e.symm)]
    cases hl : lookupResource l k with
    | none =>
      have step : addOverheadToNonZeroLimits l ((k, q) :: rest) =
          addOverheadToNonZeroLimits l rest := by
        simp only [addOverheadToNonZeroLimits, List.foldl_cons, hl]
      rw [step, ih _ hnd.2 n]
      by_cases hn : n = k
      · subst hn
        rw [lookupResource_eq_none_of_not_mem hnd.1, hl]
        rfl
      · rw [tail_eq n hn]
    | some v =>
      by_cases hz : v ≠ 0
      · have step : addOverheadToNonZeroLimits l ((k, q) :: rest) =
            addOverheadToNonZeroLimits (setResource l k (v + q)) rest := by
          simp only [addOverheadToNonZeroLimits, List.foldl_cons, hl, if_pos hz]
        rw [step, ih _ hnd.2 n, lookupResource_setResource]
        by_cases hn : n = k
        · subst hn
          rw [if_pos rfl, lookupResource_eq_none_of_not_mem hnd.1, hl]
          simp only [lookupResource, if_pos rfl]
          simp [applyOverheadAt, hz]
        · rw [if_neg hn, tail_eq n hn]
      · have step : addOverheadToNonZeroLimits l ((k, q) :: rest) =
            addOverheadToNonZeroLimits l rest := by
          simp only [addOverheadToNonZeroLimits, List.foldl_cons, hl, if_neg hz]
        rw [step, ih _ hnd.2 n]
        by_cases hn : n = k
        · subst hn
          rw [lookupResource_eq_none_of_not_mem hnd.1, hl]
          simp only [lookupResource, if_pos rfl]
          simp [applyOverheadAt, hz]
        · rw [tail_eq n hn]

/-! ## Key-presence lemmas: the aggregation helpers never drop a key, and
insert every key of their second argument, zero-valued or not. -/

theorem isSome_addResourceList_left :
    ∀ (newList list : ResourceList) (n : ResourceName),
      (lookupResource list n).isSome = true →
      (lookupResource (addResourceList list newList) n).isSome = true := by
  intro newList
  induction newList with
  | nil => intro l n h; exact h
  | cons kq rest ih =>
    obtain ⟨k, q⟩ := kq
    intro l n h
    cases hl : lookupResource l k with
    | none =>
      have step : addResourceList l ((k, q) :: rest) =
          addResourceList (setResource l k q) rest := by
        simp only [addResourceList, List.foldl_cons, hl]
      rw [step]
      exact ih _ n (lookupResource_isSome_setResource l n k q h)
    | some v =>
      have step : addResourceList l ((k, q) :: rest) =
          addResourceList (setResource l k (v + q)) rest := by
        simp only [addResourceList, List.foldl_cons, hl]
      rw [step]
      exact ih _ n (lookupResource_isSome_setResource l n k (v + q) h)

theorem isSome_addResourceList_right :
    ∀ (newList list : ResourceList) (n : ResourceName),
      (lookupResource newList n).isSome = true →
      (lookupResource (addResourceList list newList) n).isSome = true := by
  intro newList
  induction newList with
  | nil => intro l n h; simp [lookupResource] at h
  | cons kq rest ih =>
    obtain ⟨k, q⟩ := kq
    intro l n h
    by_cases hn : n = k
    · subst hn
      cases hl : lookupResource l n with
      | none =>
        have step : addResourceList l ((n, q) :: rest) =
            addResourceList (setResource l n q) rest := by
          simp only [addResourceList, List.foldl_cons, hl]
        rw [step]
        refine isSome_addResourceList_left rest _ n ?_
        rw [lookupResource_setResource_self]
        rfl
      | some v =>
        have step : addResourceList l ((n, q) :: rest) =
            addResourceList (setResource l n (v + q)) rest := by
          simp only [addResourceList, List.foldl_cons, hl]
        rw [step]
        refine isSome_addResourceList_left rest _ n ?_
        rw [lookupResource_setResource_self]
        rfl
    · have hrest : (lookupResource rest n).isSome = true := by
        simp only [lookupResource] at h
        rwa [if_neg (fun e => hn e.symm)] at h
      cases hl : lookupResource l k with
      | none =>
        have step : addResourceList l ((k, q) :: rest) =
            addResourceList (setResource l k q) rest := by
          simp only [addResourceList, List.foldl_cons, hl]
        rw [step]
        exact ih _ n hrest
      | some v =>
        have step : addResourceList l ((k, q) :: rest) =
            addResourceList (setResource l k (v + q)) rest := by
          simp only [addResourceList, List.foldl_cons, hl]
        rw [step]
        exact ih _ n hrest

theorem isSome_maxResourceList_left :
    ∀ (newList list : ResourceList) (n : ResourceName),
      (lookupResource list n).isSome = true →
      (lookupResource (maxResourceList list newList) n).isSome = true := by
  intro newList
  induction newList with
  | nil => intro l n h; exact h
  | cons kq rest ih =>
    obtain ⟨k, q⟩ := kq
    intro l n h
    cases hl : lookupResource l k with
    | none =>
      have step : maxResourceList l ((k, q) :: rest) =
          maxResourceList (setResource l k q) rest := by
        simp only [maxResourceList, List.foldl_cons, hl]
      rw [step]
      exact ih _ n (lookupResource_isSome_setResource l n k q h)
    | some v =>
      by_cases hgt : q > v
      · have step : maxResourceList l ((k, q) :: rest) =
            maxResourceList (setResource l k q) rest := by
          simp only [maxResourceList, List.foldl_cons, hl, if_pos hgt]
        rw [step]
        exact ih _ n (lookupResource_isSome_setResource l n k q h)
      · have step : maxResourceList l ((k, q) :: rest) = maxResourceList l rest := by
          simp only [maxResourceList, List.foldl_cons, hl, if_neg hgt]
        rw [step]
        exact ih _ n h

theorem isSome_maxResourceList_right :
    ∀ (newList list : ResourceList) (n : ResourceName),
      (lookupResource newList n).isSome = true →
      (lookupResource (maxResourceList list newList) n).isSome = true := by
  intro newList
  induction newList with
  | nil => intro l n h; simp [lookupResource] at h
  | cons kq rest ih =>
    obtain ⟨k, q⟩ := kq
    intro l n h
    by_cases hn : n = k
    · subst hn
      cases hl : lookupResource l n with
      | none =>
        have step : maxResourceList l ((n, q) :: rest) =
            maxResourceList (setResource l n q) rest := by
          simp only [maxResourceList, List.foldl_cons, hl]
        rw [step]
        refine isSome_maxResourceList_left rest _ n ?_
        rw [lookupResource_setResource_self]
        rfl
      | some v =>
        by_cases hgt : q > v
        · have step : maxResourceList l ((n, q) :: rest) =
              maxResourceList (setResource l n q) rest := by
            simp only [maxResourceList, List.foldl_cons, hl, if_pos hgt]
          rw [step]
          refine isSome_maxResourceList_left rest _ n ?_
          rw [lookupResource_setResource_self]
          rfl
        · have step : maxResourceList l ((n, q) :: rest) = maxResourceList l rest := by
            simp only [maxResourceList, List.foldl_cons, hl, if_neg hgt]
          rw [step]
          refine isSome_maxResourceList_left rest _ n ?_
          rw [hl]
          rfl
    · have hrest : (lookupResource rest n).isSome = true := by
        simp only [lookupResource] at h
        rwa [if_neg (fun e => hn e.symm)] at h
      cases hl : lookupResource l k with
      | none =>
        have step : maxResourceList l ((k, q) :: rest) =
            maxResourceList (setResource l k q) rest := by
          simp only [maxResourceList, List.foldl_cons, hl]
        rw [step]
        exact ih _ n hrest
      | some v =>
        by_cases hgt : q > v
        · have step : maxResourceList l ((k, q) :: rest) =
              maxResourceList (setResource l k q) rest := by
            simp only [maxResourceList, List.foldl_cons, hl, if_pos hgt]
          rw [step]
          exact ih _ n hrest
        · have step : maxResourceList l ((k, q) :: rest) = maxResourceList l rest := by
            simp only [maxResourceList, List.foldl_cons, hl, if_neg hgt]
          rw [step]
          exact ih _ n hrest

theorem isSome_addOverheadToNonZeroLimits_left :
    ∀ (overhead list : ResourceList) (n : ResourceName),
      (lookupResource list n).isSome = true →
      (lookupResource (addOverheadToNonZeroLimits list overhead) n).isSome = true := by
  intro overhead
  induction overhead with
  | nil => intro l n h; exact h
  | cons kq rest ih =>
    obtain ⟨k, q⟩ := kq
    intro l n h
    cases hl : lookupResource l k with
    | none =>
      have step : addOverheadToNonZeroLimits l ((k, q) :: rest) =
          addOverheadToNonZeroLimits l rest := by
        simp only [addOverheadToNonZeroLimits, List.foldl_cons, hl]
      rw [step]
      exact ih _ n h
    | some v =>
      by_cases hz : v ≠ 0
      · have step : addOverheadToNonZeroLimits l ((k, q) :: rest) =
            addOverheadToNonZeroLimits (setResource l k (v + q)) rest := by
          simp only [addOverheadToNonZeroLimits, List.foldl_cons, hl, if_pos hz]
        rw [step]
        exact ih _ n (lookupResource_isSome_setResource l n k (v + q) h)
      · have step : addOverheadToNonZeroLimits l ((k, q) :: rest) =
            addOverheadToNonZeroLimits l rest := by
          simp only [addOverheadToNonZeroLimits, List.foldl_cons, hl, if_neg hz]
        rw [step]
        exact ih _ n h

/-- A name present in the accumulator or in any merged container list is
present after the summing fold. -/
theorem isSome_foldl_addResourceList (f : Container → ResourceList) :
    ∀ (cs : List Container) (l : ResourceList) (n : ResourceName),
      ((lookupResource l n).isSome = true ∨
        ∃ c ∈ cs, (lookupResource (f c) n).isSome = true) →
      (lookupResource (cs.foldl (fun acc c => addResourceList acc (f c)) l) n).isSome
        = true := by
  intro cs
  induction cs with
  | nil =>
    intro l n h
    rcases h with h | ⟨c, hc, _⟩
    · exact h
    · simp at hc
  | cons c cs ih =>
    intro l n h
    rw [List.foldl_cons]
    refine ih (addResourceList l (f c)) n ?_
    rcases h with h | ⟨c', hc', h⟩
    · exact Or.inl (isSome_addResourceList_left (f c) l n h)
    · rw [List.mem_cons] at hc'
      rcases hc' with hc' | hc'
      · subst hc'
        exact Or.inl (isSome_addResourceList_right (f c') l n h)
      · exact Or.inr ⟨c', hc', h⟩

/-- A name present in the accumulator or in any merged container list is
present after the max-merging fold. -/
theorem isSome_foldl_maxResourceList (f : Container → ResourceList) :
    ∀ (cs : List Container) (l : ResourceList) (n : ResourceName),
      ((lookupResource l n).isSome = true ∨
        ∃ c ∈ cs, (lookupResource (f c) n).isSome = true) →
      (lookupResource (cs.foldl (fun acc c => maxResourceList acc (f c)) l) n).isSome
        = true := by
  intro cs
  induction cs with
  | nil =>
    intro l n h
    rcases h with h | ⟨c, hc, _⟩
    · exact h
    · simp at hc
  | cons c cs ih =>
    intro l n h
    rw [List.foldl_cons]
    refine ih (maxResourceList l (f c)) n ?_
    rcases h with h | ⟨c', hc', h⟩
    · exact Or.inl (isSome_maxResourceList_left (f c) l n h)
    · rw [List.mem_cons] at hc'
      rcases hc' with hc' | hc'
      · subst hc'
        exact Or.inl (isSome_maxResourceList_right (f c') l n h)
      · exact Or.inr ⟨c', hc', h⟩

/-- Looking up a name after the summing fold yields the pointwise sum of
the accumulator entry and the containers' entries. -/
theorem lookupResource_foldl_addResourceList (f : Container → ResourceList) :
    ∀ (cs : List Container) (l : ResourceList),
      (∀ c ∈ cs, ((f c).map Prod.fst).Nodup) →
      ∀ n, lookupResource (cs.foldl (fun acc c => addResourceList acc (f c)) l) n
        = optAdd (lookupResource l n)
            (cs.foldr (fun c acc => optAdd (lookupResource (f c) n) acc) none) := by
  intro cs
  induction cs with
  | nil =>
    intro l _ n
    rw [List.foldl_nil, List.foldr_nil, optAdd_none_right]
  | cons c cs ih =>
    intro l h n
    rw [List.foldl_cons, List.foldr_cons,
      ih (addResourceList l (f c)) (fun c' hc' => h c' (List.mem_cons_of_mem _ hc')) n,
      lookupResource_addResourceList (f c) l (h c (List.mem_cons_self _ _)) n,
      optAdd_assoc]

/-! ## Taint-matcher lemmas -/

theorem tolerationsTolerateTaint_eq_any (tolerations : List Toleration) (taint : Taint) :
    TolerationsTolerateTaint tolerations taint =
      tolerations.any (fun t => t.toleratesTaint taint) := by
  induction tolerations with
  | nil => rfl
  | cons t rest ih =>
    rw [TolerationsTolerateTaint, List.any_cons]
    cases h : t.toleratesTaint taint
    · rw [if_neg (by simp [h]), ih]
      simp
    · rw [if_pos (by simp [h])]
      simp [h]

theorem foldl_filter_taints (filt : Taint → Bool) :
    ∀ (taints acc : List Taint),
      taints.foldl (fun acc taint => if filt taint then acc ++ [taint] else acc) acc
        = acc ++ taints.filter filt := by
  intro taints
  induction taints with
  | nil => intro acc; simp
  | cons t rest ih =>
    intro acc
    cases h : filt t
    · rw [List.foldl_cons]
      have hstep : (if filt t = true then acc ++ [t] else acc) = acc := by simp [h]
      rw [hstep, ih acc, List.filter_cons]
      simp [h]
    · rw [List.foldl_cons]
      have hstep : (if filt t = true then acc ++ [t] else acc) = acc ++ [t] := by
        simp [h]
      rw [hstep, ih (acc ++ [t]), List.filter_cons]
      simp [h]

/-- `getFilteredTaints` with a non-nil filter is exactly `List.filter`. -/
theorem getFilteredTaints_some (taints : List Taint) (filt : Taint → Bool) :
    getFilteredTaints taints (some filt) = taints.filter filt := by
  rw [getFilteredTaints]
  exact foldl_filter_taints filt taints []

theorem findUntolerated_of_all_tolerated (tolerations : List Toleration) :
    ∀ taints : List Taint,
      (∀ t ∈ taints, TolerationsTolerateTaint tolerations t = true) →
      findUntolerated tolerations taints = (Taint.zero, false) := by
  intro taints
  induction taints with
  | nil => intro _; rfl
  | cons t rest ih =>
    intro h
    rw [findUntolerated, if_neg (by simp [h t (List.mem_cons_self _ _)])]
    exact ih (fun u hu => h u (List.mem_cons_of_mem _ hu))

theorem findUntolerated_first (tolerations : List Toleration) :
    ∀ taints : List Taint,
      (∃ t ∈ taints, TolerationsTolerateTaint tolerations t = false) →
      ∃ l₁ t l₂, taints = l₁ ++ t :: l₂ ∧
        (∀ u ∈ l₁, TolerationsTolerateTaint tolerations u = true) ∧
        TolerationsTolerateTaint tolerations t = false ∧
        findUntolerated tolerations taints = (t, true) := by
  intro taints
  induction taints with
  | nil =>
    intro h
    obtain ⟨t, ht, _⟩ := h
    simp at ht
  | cons a rest ih =>
    intro h
    cases ha : TolerationsTolerateTaint tolerations a with
    | false =>
      refine ⟨[], a, rest, by simp, by simp, ha, ?_⟩
      rw [findUntolerated, if_pos (by simp [ha])]
    | true =>
      obtain ⟨t, ht, hf⟩ := h
      rw [List.mem_cons] at ht
      have hrest : ∃ t ∈ rest, TolerationsTolerateTaint tolerations t = false := by
        rcases ht with ht | ht
        · rw [ht] at hf
          rw [hf] at ha
          exact absurd ha (by simp)
        · exact ⟨t, ht, hf⟩
      obtain ⟨l₁, u, l₂, heq, hall, hu, hfind⟩ := ih hrest
      refine ⟨a :: l₁, u, l₂, by rw [heq]; rfl, ?_, hu, ?_⟩
      · intro w hw
        rw [List.mem_cons] at hw
        rcases hw with hw | hw
        · rw [hw]; exact ha
        · exact hall w hw
      · rw [findUntolerated, if_neg (by simp [ha])]
        exact hfind

/-! ## Frame and freshness of the allocation-tracking model -/

theorem stepOK_refl {n0 : Nat} {h : Heap} {list : ResourceListH}
    (hrefs : ∀ r ∈ refsOf list, n0 ≤ r ∧ r < h.next) :
    StepOK n0 h (list, h) :=
  ⟨Nat.le_refl _, fun _ _ => rfl, hrefs⟩

theorem stepOK_trans {n0 : Nat} {h : Heap} {p q : ResourceListH × Heap}
    (h1 : StepOK n0 h p) (h2 : StepOK n0 p.2 q) : StepOK n0 h q :=
  ⟨Nat.le_trans h1.1 h2.1,
   fun i hi => (h2.2.1 i hi).trans (h1.2.1 i hi),
   h2.2.2⟩

theorem refs_setResource_bound {list : ResourceListH} {n0 hi : Nat}
    {n : ResourceName} {r : QRef}
    (hlist : ∀ s ∈ refsOf list, n0 ≤ s ∧ s < hi)
    (hr : n0 ≤ r ∧ r < hi) :
    ∀ s ∈ refsOf (setResource list n r), n0 ≤ s ∧ s < hi := by
  intro s hs
  rcases snd_setResource_subset hs with h1 | h1
  · exact hlist s h1
  · rw [h1]; exact hr

theorem addResourceListH_stepOK :
    ∀ (newList list : ResourceListH) (h : Heap) (n0 : Nat),
      n0 ≤ h.next →
      (∀ r ∈ refsOf newList, r < n0) →
      (∀ r ∈ refsOf list, n0 ≤ r ∧ r < h.next) →
      StepOK n0 h (addResourceListH list newList h) := by
  intro newList
  induction newList with
  | nil =>
    intro list h n0 _ _ hlist
    exact stepOK_refl hlist
  | cons kq rest ih =>
    obtain ⟨k, q⟩ := kq
    intro list h n0 hn0 hnew hlist
    have hnewrest : ∀ r ∈ refsOf rest, r < n0 := by
      intro r hr
      exact hnew r (by simp [refsOf] at hr ⊢; exact Or.inr hr)
    cases hl : lookupResource list k with
    | none =>
      have step : addResourceListH list ((k, q) :: rest) h =
          addResourceListH (setResource list k h.next)
            rest ⟨fun i => if i = h.next then h.store q else h.store i, h.next + 1⟩ := by
        simp only [addResourceListH, List.foldl_cons, hl, Heap.alloc]
      rw [step]
      have hone : StepOK n0 h
          ((setResource list k h.next : ResourceListH),
           (⟨fun i => if i = h.next then h.store q else h.store i, h.next + 1⟩ : Heap)) := by
        refine ⟨Nat.le_succ _, ?_, ?_⟩
        · intro i hi
          have : i ≠ h.next := Nat.ne_of_lt (Nat.lt_of_lt_of_le hi hn0)
          simp [this]
        · refine refs_setResource_bound ?_ ⟨hn0, Nat.lt_succ_self _⟩
          intro s hsmem
          have := hlist s hsmem
          exact ⟨this.1, Nat.lt_succ_of_lt this.2⟩
      refine stepOK_trans hone (ih _ _ n0 (Nat.le_succ_of_le hn0) hnewrest ?_)
      exact hone.2.2
    | some r =>
      have hrmem : r ∈ refsOf list := lookupResource_mem_snd hl
      have hrb := hlist r hrmem
      have step : addResourceListH list ((k, q) :: rest) h =
          addResourceListH (setResource list k r)
            rest ⟨fun i => if i = r then h.store r + h.store q else h.store i, h.next⟩ := by
        simp only [addResourceListH, List.foldl_cons, hl, Heap.write]
      rw [step]
      have hone : StepOK n0 h
          ((setResource list k r : ResourceListH),
           (⟨fun i => if i = r then h.store r + h.store q else h.store i, h.next⟩ : Heap)) := by
        refine ⟨Nat.le_refl _, ?_, ?_⟩
        · intro i hi
          have : i ≠ r := Nat.ne_of_lt (Nat.lt_of_lt_of_le hi hrb.1)
          simp [this]
        · exact refs_setResource_bound hlist hrb
      refine stepOK_trans hone (ih _ _ n0 hn0 hnewrest ?_)
      exact hone.2.2

theorem maxResourceListH_stepOK :
    ∀ (newList list : ResourceListH) (h : Heap) (n0 : Nat),
      n0 ≤ h.next →
      (∀ r ∈ refsOf newList, r < n0) →
      (∀ r ∈ refsOf list, n0 ≤ r ∧ r < h.next) →
      StepOK n0 h (maxResourceListH list newList h) := by
  intro newList
  induction newList with
  | nil =>
    intro list h n0 _ _ hlist
    exact stepOK_refl hlist
  | cons kq rest ih =>
    obtain ⟨k, q⟩ := kq
    intro list h n0 hn0 hnew hlist
    have hnewrest : ∀ r ∈ refsOf rest, r < n0 := by
      intro r hr
      exact hnew r (by simp [refsOf] at hr ⊢; exact Or.inr hr)
    cases hl : lookupResource list k with
    | none =>
      have step : maxResourceListH list ((k, q) :: rest) h =
          maxResourceListH (setResource list k h.next)
            rest ⟨fun i => if i = h.next then h.store q else h.store i, h.next + 1⟩ := by
        simp only [maxResourceListH, List.foldl_cons, hl, Heap.alloc]
      rw [step]
      have hone : StepOK n0 h
          ((setResource list k h.next : ResourceListH),
           (⟨fun i => if i = h.next then h.store q else h.store i, h.next + 1⟩ : Heap)) := by
        refine ⟨Nat.le_succ _, ?_, ?_⟩
        · intro i hi
          have : i ≠ h.next := Nat.ne_of_lt (Nat.lt_of_lt_of_le hi hn0)
          simp [this]
        · refine refs_setResource_bound ?_ ⟨hn0, Nat.lt_succ_self _⟩
          intro s hsmem
          have := hlist s hsmem
          exact ⟨this.1, Nat.lt_succ_of_lt this.2⟩
      refine stepOK_trans hone (ih _ _ n0 (Nat.le_succ_of_le hn0) hnewrest ?_)
      exact hone.2.2
    | some r =>
      have hrmem : r ∈ refsOf list := lookupResource_mem_snd hl
      have hrb := hlist r hrmem
      by_cases hgt : h.store q > h.store r
      · have step : maxResourceListH list ((k, q) :: rest) h =
            maxResourceListH (setResource list k h.next)
              rest ⟨fun i => if i = h.next then h.store q else h.store i, h.next + 1⟩ := by
          simp only [maxResourceListH, List.foldl_cons, hl, if_pos hgt, Heap.alloc]
        rw [step]
        have hone : StepOK n0 h
            ((setResource list k h.next : ResourceListH),
             (⟨fun i => if i = h.next then h.store q else h.store i, h.next + 1⟩ : Heap)) := by
          refine ⟨Nat.le_succ _, ?_, ?_⟩
          · intro i hi
            have : i ≠ h.next := Nat.ne_of_lt (Nat.lt_of_lt_of_le hi hn0)
            simp [this]
          · refine refs_setResource_bound ?_ ⟨hn0, Nat.lt_succ_self _⟩
            intro s hsmem
            have := hlist s hsmem
            exact ⟨this.1, Nat.lt_succ_of_lt this.2⟩
        refine stepOK_trans hone (ih _ _ n0 (Nat.le_succ_of_le hn0) hnewrest ?_)
        exact hone.2.2
      · have step : maxResourceListH list ((k, q) :: rest) h =
            maxResourceListH list rest h := by
          simp only [maxResourceListH, List.foldl_cons, hl, if_neg hgt]
        rw [step]
        exact ih _ _ n0 hn0 hnewrest hlist

theorem addOverheadToNonZeroLimitsH_stepOK :
    ∀ (overhead list : ResourceListH) (h : Heap) (n0 : Nat),
      n0 ≤ h.next →
      (∀ r ∈ refsOf overhead, r < n0) →
      (∀ r ∈ refsOf list, n0 ≤ r ∧ r < h.next) →
      StepOK n0 h (addOverheadToNonZeroLimitsH list overhead h) := by
  intro overhead
  induction overhead with
  | nil =>
    intro list h n0 _ _ hlist
    exact stepOK_refl hlist
  | cons kq rest ih =>
    obtain ⟨k, q⟩ := kq
    intro list h n0 hn0 hnew hlist
    have hnewrest : ∀ r ∈ refsOf rest, r < n0 := by
      intro r hr
      exact hnew r (by simp [refsOf] at hr ⊢; exact Or.inr hr)
    cases hl : lookupResource list k with
    | none =>
      have step : addOverheadToNonZeroLimitsH list ((k, q) :: rest) h =
          addOverheadToNonZeroLimitsH list rest h := by
        simp only [addOverheadToNonZeroLimitsH, List.foldl_cons, hl]
      rw [step]
      exact ih _ _ n0 hn0 hnewrest hlist
    | some r =>
      have hrmem : r ∈ refsOf list := lookupResource_mem_snd hl
      have hrb := hlist r hrmem
      by_cases hz : h.store r ≠ 0
      · have step : addOverheadToNonZeroLimitsH list ((k, q) :: rest) h =
            addOverheadToNonZeroLimitsH (setResource list k r)
              rest ⟨fun i => if i = r then h.store r + h.store q else h.store i, h.next⟩ := by
          simp only [addOverheadToNonZeroLimitsH, List.foldl_cons, hl, if_pos hz,
            Heap.write]
        rw [step]
        have hone : StepOK n0 h
            ((setResource list k r : ResourceListH),
             (⟨fun i => if i = r then h.store r + h.store q else h.store i, h.next⟩ : Heap)) := by
          refine ⟨Nat.le_refl _, ?_, ?_⟩
          · intro i hi
            have : i ≠ r := Nat.ne_of_lt (Nat.lt_of_lt_of_le hi hrb.1)
            simp [this]
          · exact refs_setResource_bound hlist hrb
        refine stepOK_trans hone (ih _ _ n0 hn0 hnewrest ?_)
        exact hone.2.2
      · have step : addOverheadToNonZeroLimitsH list ((k, q) :: rest) h =
            addOverheadToNonZeroLimitsH list rest h := by
          simp only [addOverheadToNonZeroLimitsH, List.foldl_cons, hl, if_neg hz]
        rw [step]
        exact ih _ _ n0 hn0 hnewrest hlist

theorem foldl_addResourceListH_stepOK (f : ContainerH → ResourceListH) :
    ∀ (cs : List ContainerH) (list : ResourceListH) (h : Heap) (n0 : Nat),
      n0 ≤ h.next →
      (∀ c ∈ cs, ∀ r ∈ refsOf (f c), r < n0) →
      (∀ r ∈ refsOf list, n0 ≤ r ∧ r < h.next) →
      StepOK n0 h (cs.foldl (fun p c => addResourceListH p.1 (f c) p.2) (list, h)) := by
  intro cs
  induction cs with
  | nil =>
    intro list h n0 _ _ hlist
    exact stepOK_refl hlist
  | cons c cs ih =>
    intro list h n0 hn0 hcs hlist
    rw [List.foldl_cons]
    have hone : StepOK n0 h (addResourceListH list (f c) h) :=
      addResourceListH_stepOK (f c) list h n0 hn0
        (hcs c (List.mem_cons_self _ _)) hlist
    have hrec := ih (addResourceListH list (f c) h).1 (addResourceListH list (f c) h).2
      n0 (Nat.le_trans hn0 hone.1) (fun c' hc' => hcs c' (List.mem_cons_of_mem _ hc'))
      hone.2.2
    exact stepOK_trans hone hrec

theorem foldl_maxResourceListH_stepOK (f : ContainerH → ResourceListH) :
    ∀ (cs : List ContainerH) (list : ResourceListH) (h : Heap) (n0 : Nat),
      n0 ≤ h.next →
      (∀ c ∈ cs, ∀ r ∈ refsOf (f c), r < n0) →
      (∀ r ∈ refsOf list, n0 ≤ r ∧ r < h.next) →
      StepOK n0 h (cs.foldl (fun p c => maxResourceListH p.1 (f c) p.2) (list, h)) := by
  intro cs
  induction cs with
  | nil =>
    intro list h n0 _ _ hlist
    exact stepOK_refl hlist
  | cons c cs ih =>
    intro list h n0 hn0 hcs hlist
    rw [List.foldl_cons]
    have hone : StepOK n0 h (maxResourceListH list (f c) h) :=
      maxResourceListH_stepOK (f c) list h n0 hn0
        (hcs c (List.mem_cons_self _ _)) hlist
    have hrec := ih (maxResourceListH list (f c) h).1 (maxResourceListH list (f c) h).2
      n0 (Nat.le_trans hn0 hone.1) (fun c' hc' => hcs c' (List.mem_cons_of_mem _ hc'))
      hone.2.2
    exact stepOK_trans hone hrec

theorem podRefs_of_requests {pod : PodH} {c : ContainerH} {r : QRef}
    (hc : c ∈ pod.spec.containers ++ pod.spec.initContainers)
    (hr : r ∈ refsOf c.resources.requests) : r ∈ podRefs pod := by
  rw [podRefs]
  refine List.mem_append_left _ ?_
  rw [List.mem_flatten]
  exact ⟨refsOf c.resources.requests ++ refsOf c.resources.limits,
    List.mem_map_of_mem _ hc, List.mem_append_left _ hr⟩

theorem podRefs_of_limits {pod : PodH} {c : ContainerH} {r : QRef}
    (hc : c ∈ pod.spec.containers ++ pod.spec.initContainers)
    (hr : r ∈ refsOf c.resources.limits) : r ∈ podRefs pod := by
  rw [podRefs]
  refine List.mem_append_left _ ?_
  rw [List.mem_flatten]
  exact ⟨refsOf c.resources.requests ++ refsOf c.resources.limits,
    List.mem_map_of_mem _ hc, List.mem_append_right _ hr⟩

theorem podRefs_of_overhead {pod : PodH} {r : QRef}
    (hr : r ∈ refsOf (pod.spec.overhead.getD [])) : r ∈ podRefs pod := by
  rw [podRefs]
  exact List.mem_append_right _ hr

/-- The full `PodRequests` computation on the allocation-tracking model
satisfies the frame-and-freshness contract when every input cell lives
below the heap's fresh boundary. -/
theorem podRequestsH_stepOK (pod : PodH) (opts : Option PodResourcesOptionsH)
    (h : Heap) (hin : ∀ r ∈ podRefs pod, r < h.next) :
    StepOK h.next h (PodRequestsH pod opts h) := by
  have hstart : ∀ r ∈ refsOf (reuseOrClearResourceList (opts.getD {}).reuse),
      h.next ≤ r ∧ r < h.next := by
    rw [reuseOrClearResourceList_eq_nil]
    intro r hr
    simp [refsOf] at hr
  have h1 : StepOK h.next h
      (pod.spec.containers.foldl
        (fun p container => addResourceListH p.1 container.resources.requests p.2)
        (reuseOrClearResourceList (opts.getD {}).reuse, h)) := by
    refine foldl_addResourceListH_stepOK (fun c => c.resources.requests)
      pod.spec.containers _ h h.next (Nat.le_refl _) ?_ hstart
    intro c hc r hr
    exact hin r (podRefs_of_requests (List.mem_append_left _ hc) hr)
  set p1 := pod.spec.containers.foldl
    (fun p container => addResourceListH p.1 container.resources.requests p.2)
    (reuseOrClearResourceList (opts.getD {}).reuse, h) with hp1
  have h2 : StepOK h.next h
      (pod.spec.initContainers.foldl
        (fun p container => maxResourceListH p.1 container.resources.requests p.2) p1) := by
    refine stepOK_trans h1 ?_
    have := foldl_maxResourceListH_stepOK (fun c => c.resources.requests)
      pod.spec.initContainers p1.1 p1.2 h.next (Nat.le_trans (Nat.le_refl _) h1.1)
      (fun c hc r hr => hin r (podRefs_of_requests (List.mem_append_right _ hc) hr))
      h1.2.2
    simpa using this
  set p2 := pod.spec.initContainers.foldl
    (fun p container => maxResourceListH p.1 container.resources.requests p.2) p1 with hp2
  rw [PodRequestsH]
  by_cases hov : (!(opts.getD {}).excludeOverhead && pod.spec.overhead.isSome) = true
  · rw [if_pos hov]
    refine stepOK_trans h2 ?_
    refine addResourceListH_stepOK (pod.spec.overhead.getD []) p2.1 p2.2 h.next
      (Nat.le_trans (Nat.le_refl _) h2.1) ?_ h2.2.2
    intro r hr
    exact hin r (podRefs_of_overhead hr)
  · rw [if_neg hov]
    exact h2

/-- The full `PodLimits` computation on the allocation-tracking model
satisfies the frame-and-freshness contract when every input cell lives
below the heap's fresh boundary. -/
theorem podLimitsH_stepOK (pod : PodH) (opts : Option PodResourcesOptionsH)
    (h : Heap) (hin : ∀ r ∈ podRefs pod, r < h.next) :
    StepOK h.next h (PodLimitsH pod opts h) := by
  have hstart : ∀ r ∈ refsOf (reuseOrClearResourceList (opts.getD {}).reuse),
      h.next ≤ r ∧ r < h.next := by
    rw [reuseOrClearResourceList_eq_nil]
    intro r hr
    simp [refsOf] at hr
  have h1 : StepOK h.next h
      (pod.spec.containers.foldl
        (fun p container => addResourceListH p.1 container.resources.limits p.2)
        (reuseOrClearResourceList (opts.getD {}).reuse, h)) := by
    refine foldl_addResourceListH_stepOK (fun c => c.resources.limits)
      pod.spec.containers _ h h.next (Nat.le_refl _) ?_ hstart
    intro c hc r hr
    exact hin r (podRefs_of_limits (List.mem_append_left _ hc) hr)
  set p1 := pod.spec.containers.foldl
    (fun p container => addResourceListH p.1 container.resources.limits p.2)
    (reuseOrClearResourceList (opts.getD {}).reuse, h) with hp1
  have h2 : StepOK h.next h
      (pod.spec.initContainers.foldl
        (fun p container => maxResourceListH p.1 container.resources.limits p.2) p1) := by
    refine stepOK_trans h1 ?_
    have := foldl_maxResourceListH_stepOK (fun c => c.resources.limits)
      pod.spec.initContainers p1.1 p1.2 h.next (Nat.le_trans (Nat.le_refl _) h1.1)
      (fun c hc r hr => hin r (podRefs_of_limits (List.mem_append_right _ hc) hr))
      h1.2.2
    simpa using this
  set p2 := pod.spec.initContainers.foldl
    (fun p container => maxResourceListH p.1 container.resources.limits p.2) p1 with hp2
  rw [PodLimitsH]
  by_cases hov : (!(opts.getD {}).excludeOverhead && pod.spec.overhead.isSome) = true
  · rw [if_pos hov]
    refine stepOK_trans h2 ?_
    refine addOverheadToNonZeroLimitsH_stepOK (pod.spec.overhead.getD []) p2.1 p2.2 h.next
      (Nat.le_trans (Nat.le_refl _) h2.1) ?_ h2.2.2
    intro r hr
    exact hin r (podRefs_of_overhead hr)
  · rw [if_neg hov]
    exact h2

/-! ## The claims -/

/-- C1: with overhead declared and not excluded, `PodLimits` applies an
overhead entry only where the accumulated limits already hold a non-zero
value for that name, adding the overhead to the existing value; an absent
or zero limit is left untouched, so overhead never inserts a new key. -/
theorem podLimits_overhead_only_grows_nonzero (pod : Pod)
    (opts : Option PodResourcesOptions) (ovl : ResourceList)
    (hexc : (opts.getD {}).excludeOverhead = false)
    (hov : pod.spec.overhead = some ovl)
    (hnd : (ovl.map Prod.fst).Nodup) (n : ResourceName) :
    lookupResource (PodLimits pod opts) n =
      applyOverheadAt
        (lookupResource
          (PodLimits pod (some { opts.getD {} with excludeOverhead := true })) n)
        (lookupResource ovl n) := by
  have hbase : PodLimits pod (some { opts.getD {} with excludeOverhead := true }) =
      pod.spec.initContainers.foldl
        (fun acc container => maxResourceList acc container.resources.limits)
        (pod.spec.containers.foldl
          (fun acc container => addResourceList acc container.resources.limits)
          (reuseOrClearResourceList (opts.getD {}).reuse)) := by
    simp [PodLimits]
  have hfull : PodLimits pod opts =
      addOverheadToNonZeroLimits
        (pod.spec.initContainers.foldl
          (fun acc container => maxResourceList acc container.resources.limits)
          (pod.spec.containers.foldl
            (fun acc container => addResourceList acc container.resources.limits)
            (reuseOrClearResourceList (opts.getD {}).reuse))) ovl := by
    simp [PodLimits, hexc, hov]
  rw [hfull, hbase]
  exact lookupResource_addOverheadToNonZeroLimits ovl _ hnd n

/-- Witness for C1 at the specified example: one container with limits
cpu 2 / mem 0 and overhead cpu 1 / mem 1; at name mem the hypotheses hold
and the characterization applies (mem keeps its zero limit). -/
theorem podLimits_overhead_only_grows_nonzero_witness :
    (((none : Option PodResourcesOptions).getD {}).excludeOverhead = false) ∧
    limitsExamplePod.spec.overhead = some [("cpu", 1), ("mem", 1)] ∧
    (([(("cpu" : ResourceName), (1 : Quantity)), ("mem", 1)].map Prod.fst)).Nodup ∧
    lookupResource (PodLimits limitsExamplePod none) "mem" =
      applyOverheadAt
        (lookupResource
          (PodLimits limitsExamplePod
            (some { (none : Option PodResourcesOptions).getD {} with
                      excludeOverhead := true })) "mem")
        (lookupResource [("cpu", (1 : Quantity)), ("mem", 1)] "mem") :=
  ⟨rfl, rfl, by decide,
    podLimits_overhead_only_grows_nonzero limitsExamplePod none
      [("cpu", 1), ("mem", 1)] rfl rfl (by decide) "mem"⟩

/-- C2: both aggregation passes merge an init container's entries by
maximum — an entry is written exactly when the name is absent or the new
quantity is strictly greater — and consequently the mixed example pod
(regular cpu 1 / mem 1Gi and cpu 2, init cpu 5) yields cpu 5, mem 1Gi. -/
theorem podRequests_init_max_merge :
    (∀ (list newList : ResourceList), (newList.map Prod.fst).Nodup →
      ∀ n, lookupResource (maxResourceList list newList) n =
        optMax (lookupResource list n) (lookupResource newList n)) ∧
    lookupResource (PodRequests mixedExamplePod none) "cpu" = some 5 ∧
    lookupResource (PodRequests mixedExamplePod none) "mem" = some 1073741824 ∧
    (PodRequests mixedExamplePod none).map Prod.fst = ["cpu", "mem"] :=
  ⟨fun list newList hnd n => lookupResource_maxResourceList newList list hnd n,
   by decide, by decide, by decide⟩

/-- Witness for C2: the max-merge characterization applied at a concrete
accumulator and init-container list. -/
theorem podRequests_init_max_merge_witness :
    (([(("cpu" : ResourceName), (5 : Quantity)), ("mem", 7)].map Prod.fst)).Nodup ∧
    lookupResource (maxResourceList [("cpu", 2)] [("cpu", 5), ("mem", 7)]) "cpu" =
      optMax (lookupResource [(("cpu" : ResourceName), (2 : Quantity))] "cpu")
        (lookupResource [(("cpu" : ResourceName), (5 : Quantity)), ("mem", 7)] "cpu") :=
  ⟨by decide,
    podRequests_init_max_merge.1 [("cpu", 2)] [("cpu", 5), ("mem", 7)] (by decide) "cpu"⟩

/-- C3: for a pod without init containers, `PodRequests` is the
element-wise sum of the regular containers' requests, plus the overhead
entry-wise when overhead is declared and not excluded. -/
theorem podRequests_no_init_is_sum (pod : Pod) (opts : Option PodResourcesOptions)
    (hinit : pod.spec.initContainers = [])
    (hcs : ∀ c ∈ pod.spec.containers, (c.resources.requests.map Prod.fst).Nodup)
    (hnd : ∀ ovl, pod.spec.overhead = some ovl → (ovl.map Prod.fst).Nodup)
    (n : ResourceName) :
    lookupResource (PodRequests pod opts) n =
      optAdd (sumRequestsAt pod.spec.containers n)
        (if (opts.getD {}).excludeOverhead = false ∧ pod.spec.overhead.isSome = true
          then lookupResource (pod.spec.overhead.getD []) n else none) := by
  have hcore : lookupResource
      (pod.spec.containers.foldl
        (fun acc container => addResourceList acc container.resources.requests)
        ([] : ResourceList)) n = sumRequestsAt pod.spec.containers n := by
    have hfold := lookupResource_foldl_addResourceList
      (fun c => c.resources.requests) pod.spec.containers [] hcs n
    exact hfold
  cases hovs : pod.spec.overhead with
  | none =>
    have hfull : PodRequests pod opts =
        pod.spec.containers.foldl
          (fun acc container => addResourceList acc container.resources.requests)
          ([] : ResourceList) := by
      simp [PodRequests, hinit, hovs, reuseOrClearResourceList_eq_nil]
    rw [hfull, if_neg (by simp [hovs]), optAdd_none_right]
    exact hcore
  | some ovl =>
    cases hexc : (opts.getD {}).excludeOverhead with
    | true =>
      have hfull : PodRequests pod opts =
          pod.spec.containers.foldl
            (fun acc container => addResourceList acc container.resources.requests)
            ([] : ResourceList) := by
        simp [PodRequests, hinit, hexc, reuseOrClearResourceList_eq_nil]
      rw [hfull, if_neg (by simp [hexc]), optAdd_none_right]
      exact hcore
    | false =>
      have hfull : PodRequests pod opts =
          addResourceList
            (pod.spec.containers.foldl
              (fun acc container => addResourceList acc container.resources.requests)
              ([] : ResourceList)) ovl := by
        simp [PodRequests, hinit, hexc, hovs, reuseOrClearResourceList_eq_nil]
      rw [hfull, if_pos (by simp [hexc, hovs]),
        lookupResource_addResourceList ovl _ (hnd ovl hovs) n, hcore]
      simp [hovs]

/-- Witness for C3 at the example pod with containers requesting cpu 1 and
cpu 2 / mem 3 plus overhead cpu 10, evaluated at name cpu. -/
theorem podRequests_no_init_is_sum_witness :
    sumExamplePod.spec.initContainers = [] ∧
    (∀ c ∈ sumExamplePod.spec.containers, (c.resources.requests.map Prod.fst).Nodup) ∧
    (∀ ovl, sumExamplePod.spec.overhead = some ovl → (ovl.map Prod.fst).Nodup) ∧
    lookupResource (PodRequests sumExamplePod none) "cpu" =
      optAdd (sumRequestsAt sumExamplePod.spec.containers "cpu")
        (if (((none : Option PodResourcesOptions)).getD {}).excludeOverhead = false ∧
            sumExamplePod.spec.overhead.isSome = true
          then lookupResource (sumExamplePod.spec.overhead.getD []) "cpu" else none) :=
  ⟨rfl, by decide, by decide,
    podRequests_no_init_is_sum sumExamplePod none rfl (by decide) (by decide) "cpu"⟩

/-- C4: `FindMatchingUntoleratedTaint` keeps exactly the taints accepted by
the filter (all of them for a nil filter), returns the first untolerated
filtered taint with `true`, and the zero taint with `false` when every
filtered taint is tolerated. -/
theorem findMatchingUntoleratedTaint_first (taints : List Taint)
    (tolerations : List Toleration) (inclusionFilter : TaintsFilterFunc) :
    getFilteredTaints taints none = taints ∧
    (∀ filt, getFilteredTaints taints (some filt) = taints.filter filt) ∧
    ((∀ t ∈ getFilteredTaints taints inclusionFilter,
        TolerationsTolerateTaint tolerations t = true) →
      FindMatchingUntoleratedTaint taints tolerations inclusionFilter =
        (Taint.zero, false)) ∧
    ((∃ t ∈ getFilteredTaints taints inclusionFilter,
        TolerationsTolerateTaint tolerations t = false) →
      ∃ l₁ t l₂, getFilteredTaints taints inclusionFilter = l₁ ++ t :: l₂ ∧
        (∀ u ∈ l₁, TolerationsTolerateTaint tolerations u = true) ∧
        TolerationsTolerateTaint tolerations t = false ∧
        FindMatchingUntoleratedTaint taints tolerations inclusionFilter = (t, true)) := by
  refine ⟨rfl, getFilteredTaints_some taints, ?_, ?_⟩
  · intro h
    rw [FindMatchingUntoleratedTaint]
    exact findUntolerated_of_all_tolerated tolerations _ h
  · intro h
    obtain ⟨l₁, t, l₂, heq, hall, ht, hfind⟩ := findUntolerated_first tolerations _ h
    refine ⟨l₁, t, l₂, heq, hall, ht, ?_⟩
    rw [FindMatchingUntoleratedTaint]
    exact hfind

/-- Witness for C4 at the specified example: taints A (NoSchedule) and
B (NoExecute) with a toleration for B only — a nil filter finds A
untolerated, while the NoExecute-only filter finds nothing. -/
theorem findMatchingUntoleratedTaint_first_witness :
    (∃ l₁ t l₂, getFilteredTaints [taintA, taintB] none = l₁ ++ t :: l₂ ∧
      (∀ u ∈ l₁, TolerationsTolerateTaint [tolerateOnlyB] u = true) ∧
      TolerationsTolerateTaint [tolerateOnlyB] t = false ∧
      FindMatchingUntoleratedTaint [taintA, taintB] [tolerateOnlyB] none = (t, true)) ∧
    FindMatchingUntoleratedTaint [taintA, taintB] [tolerateOnlyB]
      (some noExecuteFilter) = (Taint.zero, false) :=
  ⟨(findMatchingUntoleratedTaint_first [taintA, taintB] [tolerateOnlyB] none).2.2.2
      ⟨taintA, by decide, by decide⟩,
   (findMatchingUntoleratedTaint_first [taintA, taintB] [tolerateOnlyB]
      (some noExecuteFilter)).2.2.1 (by decide)⟩

/-- C5: `TolerationsTolerateTaint` is true iff some toleration in the list
tolerates the taint, is false on the empty list, and its result is
invariant under permutation of the toleration list. -/
theorem tolerationsTolerateTaint_any_perm (tolerations : List Toleration)
    (taint : Taint) :
    (TolerationsTolerateTaint tolerations taint = true ↔
      ∃ t ∈ tolerations, t.toleratesTaint taint = true) ∧
    TolerationsTolerateTaint [] taint = false ∧
    (∀ tolerations' : List Toleration, tolerations.Perm tolerations' →
      TolerationsTolerateTaint tolerations taint =
        TolerationsTolerateTaint tolerations' taint) := by
  refine ⟨?_, rfl, ?_⟩
  · rw [tolerationsTolerateTaint_eq_any]
    exact List.any_eq_true
  · intro tolerations' hperm
    rw [tolerationsTolerateTaint_eq_any, tolerationsTolerateTaint_eq_any]
    refine Bool.eq_iff_iff.mpr ?_
    rw [List.any_eq_true, List.any_eq_true]
    constructor
    · rintro ⟨t, ht, hp⟩
      exact ⟨t, hperm.mem_iff.mp ht, hp⟩
    · rintro ⟨t, ht, hp⟩
      exact ⟨t, hperm.mem_iff.mpr ht, hp⟩

/-- Witness for C5: permutation invariance applied at a two-element
toleration list and its swap. -/
theorem tolerationsTolerateTaint_any_perm_witness :
    ([tolerateOnlyB, tolerateNothing].Perm [tolerateNothing, tolerateOnlyB]) ∧
    TolerationsTolerateTaint [tolerateOnlyB, tolerateNothing] taintB =
      TolerationsTolerateTaint [tolerateNothing, tolerateOnlyB] taintB :=
  ⟨List.Perm.swap _ _ _,
   (tolerationsTolerateTaint_any_perm [tolerateOnlyB, tolerateNothing] taintB).2.2
     [tolerateNothing, tolerateOnlyB] (List.Perm.swap _ _ _)⟩

theorem podRequests_reuse_irrelevant (pod : Pod) (o : PodResourcesOptions)
    (r1 r2 : Option ResourceList) :
    PodRequests pod (some { o with reuse := r1 }) =
      PodRequests pod (some { o with reuse := r2 }) := by
  simp [PodRequests, reuseOrClearResourceList_eq_nil]

theorem podLimits_reuse_irrelevant (pod : Pod) (o : PodResourcesOptions)
    (r1 r2 : Option ResourceList) :
    PodLimits pod (some { o with reuse := r1 }) =
      PodLimits pod (some { o with reuse := r2 }) := by
  simp [PodLimits, reuseOrClearResourceList_eq_nil]

/-- C6: running `PodRequests` again with the accumulator produced by a
first run (passed back as the reuse map) returns the same result as the
first run — the reuse map is cleared before repopulation, so nothing
accumulates across calls. -/
theorem podRequests_reuse_idempotent (pod : Pod) (o : PodResourcesOptions)
    (r : ResourceList) :
    PodRequests pod
        (some { o with
                  reuse := some (PodRequests pod (some { o with reuse := some r })) }) =
      PodRequests pod (some { o with reuse := some r }) :=
  podRequests_reuse_irrelevant pod o _ _

/-- C7: a nil options argument behaves exactly as the zero-value options:
no reuse map, overhead included, no per-container observer. -/
theorem podRequests_podLimits_nil_options (pod : Pod) :
    PodRequests pod none = PodRequests pod (some ⟨none, false, none⟩) ∧
    PodLimits pod none = PodLimits pod (some ⟨none, false, none⟩) :=
  ⟨rfl, rfl⟩

/-- C8: on the allocation-tracking model, the aggregator never writes any
cell reachable from the pod's input resource lists, and every reference in
the returned accumulator is distinct from every input reference — outputs
are independent copies, so mutating them cannot change the inputs. -/
theorem aggregator_never_mutates_inputs (pod : PodH)
    (opts : Option PodResourcesOptionsH) (h : Heap)
    (hin : ∀ r ∈ podRefs pod, r < h.next) :
    (∀ r ∈ podRefs pod, (PodRequestsH pod opts h).2.store r = h.store r) ∧
    (∀ r ∈ refsOf (PodRequestsH pod opts h).1, ∀ s ∈ podRefs pod, r ≠ s) ∧
    (∀ r ∈ podRefs pod, (PodLimitsH pod opts h).2.store r = h.store r) ∧
    (∀ r ∈ refsOf (PodLimitsH pod opts h).1, ∀ s ∈ podRefs pod, r ≠ s) := by
  have hreq := podRequestsH_stepOK pod opts h hin
  have hlim := podLimitsH_stepOK pod opts h hin
  refine ⟨?_, ?_, ?_, ?_⟩
  · intro r hr
    exact hreq.2.1 r (hin r hr)
  · intro r hr s hs
    have h1 := (hreq.2.2 r hr).1
    have h2 := hin s hs
    exact (Nat.ne_of_lt (Nat.lt_of_lt_of_le h2 h1)).symm
  · intro r hr
    exact hlim.2.1 r (hin r hr)
  · intro r hr s hs
    have h1 := (hlim.2.2 r hr).1
    have h2 := hin s hs
    exact (Nat.ne_of_lt (Nat.lt_of_lt_of_le h2 h1)).symm

/-- Witness for C8 at a concrete pod and heap: input cells 0, 1, 2 lie
below the fresh boundary 3, and the requests computation leaves them
unchanged. -/
theorem aggregator_never_mutates_inputs_witness :
    (∀ r ∈ podRefs heapExamplePod, r < heapExample.next) ∧
    (∀ r ∈ podRefs heapExamplePod,
      (PodRequestsH heapExamplePod none heapExample).2.store r =
        heapExample.store r) :=
  ⟨by decide,
   (aggregator_never_mutates_inputs heapExamplePod none heapExample (by decide)).1⟩

/-- C9: every resource name appearing in some container's requests
(respectively limits) — regular or init, zero-valued or not — appears as a
key of `PodRequests` (respectively `PodLimits`). -/
theorem podRequests_podLimits_keep_zero_keys (pod : Pod)
    (opts : Option PodResourcesOptions) (n : ResourceName) :
    ((∃ c ∈ pod.spec.containers ++ pod.spec.initContainers,
        (lookupResource c.resources.requests n).isSome = true) →
      (lookupResource (PodRequests pod opts) n).isSome = true) ∧
    ((∃ c ∈ pod.spec.containers ++ pod.spec.initContainers,
        (lookupResource c.resources.limits n).isSome = true) →
      (lookupResource (PodLimits pod opts) n).isSome = true) := by
  constructor
  · rintro ⟨c, hc, hs⟩
    have hcore : (lookupResource
        (pod.spec.initContainers.foldl
          (fun acc container => maxResourceList acc container.resources.requests)
          (pod.spec.containers.foldl
            (fun acc container => addResourceList acc container.resources.requests)
            (reuseOrClearResourceList (opts.getD {}).reuse))) n).isSome = true := by
      rcases List.mem_append.mp hc with hreg | hini
      · exact isSome_foldl_maxResourceList (fun c => c.resources.requests)
          pod.spec.initContainers _ n
          (Or.inl (isSome_foldl_addResourceList (fun c => c.resources.requests)
            pod.spec.containers _ n (Or.inr ⟨c, hreg, hs⟩)))
      · exact isSome_foldl_maxResourceList (fun c => c.resources.requests)
          pod.spec.initContainers _ n (Or.inr ⟨c, hini, hs⟩)
    cases hov : (!(opts.getD {}).excludeOverhead && pod.spec.overhead.isSome) with
    | true =>
      have hfull : PodRequests pod opts =
          addResourceList
            (pod.spec.initContainers.foldl
              (fun acc container => maxResourceList acc container.resources.requests)
              (pod.spec.containers.foldl
                (fun acc container => addResourceList acc container.resources.requests)
                (reuseOrClearResourceList (opts.getD {}).reuse)))
            (pod.spec.overhead.getD []) := by
        rw [PodRequests]
        rw [if_pos hov]
      rw [hfull]
      exact isSome_addResourceList_left _ _ n hcore
    | false =>
      have hfull : PodRequests pod opts =
          pod.spec.initContainers.foldl
            (fun acc container => maxResourceList acc container.resources.requests)
            (pod.spec.containers.foldl
              (fun acc container => addResourceList acc container.resources.requests)
              (reuseOrClearResourceList (opts.getD {}).reuse)) := by
        rw [PodRequests]
        rw [if_neg (by rw [hov]; exact Bool.false_ne_true)]
      rw [hfull]
      exact hcore
  · rintro ⟨c, hc, hs⟩
    have hcore : (lookupResource
        (pod.spec.initContainers.foldl
          (fun acc container => maxResourceList acc container.resources.limits)
          (pod.spec.containers.foldl
            (fun acc container => addResourceList acc container.resources.limits)
            (reuseOrClearResourceList (opts.getD {}).reuse))) n).isSome = true := by
      rcases List.mem_append.mp hc with hreg | hini
      · exact isSome_foldl_maxResourceList (fun c => c.resources.limits)
          pod.spec.initContainers _ n
          (Or.inl (isSome_foldl_addResourceList (fun c => c.resources.limits)
            pod.spec.containers _ n (Or.inr ⟨c, hreg, hs⟩)))
      · exact isSome_foldl_maxResourceList (fun c => c.resources.limits)
          pod.spec.initContainers _ n (Or.inr ⟨c, hini, hs⟩)
    cases hov : (!(opts.getD {}).excludeOverhead && pod.spec.overhead.isSome) with
    | true =>
      have hfull : PodLimits pod opts =
          addOverheadToNonZeroLimits
            (pod.spec.initContainers.foldl
              (fun acc container => maxResourceList acc container.resources.limits)
              (pod.spec.containers.foldl
                (fun acc container => addResourceList acc container.resources.limits)
                (reuseOrClearResourceList (opts.getD {}).reuse)))
            (pod.spec.overhead.getD []) := by
        rw [PodLimits]
        rw [if_pos hov]
      rw [hfull]
      exact isSome_addOverheadToNonZeroLimits_left _ _ n hcore
    | false =>
      have hfull : PodLimits pod opts =
          pod.spec.initContainers.foldl
            (fun acc container => maxResourceList acc container.resources.limits)
            (pod.spec.containers.foldl
              (fun acc container => addResourceList acc container.resources.limits)
              (reuseOrClearResourceList (opts.getD {}).reuse)) := by
        rw [PodLimits]
        rw [if_neg (by rw [hov]; exact Bool.false_ne_true)]
      rw [hfull]
      exact hcore

/-- Witness for C9 at a pod whose container requests cpu 0 and limits
mem 0: both zero-valued names end up as explicit keys of the results. -/
theorem podRequests_podLimits_keep_zero_keys_witness :
    (∃ c ∈ zeroExamplePod.spec.containers ++ zeroExamplePod.spec.initContainers,
      (lookupResource c.resources.requests "cpu").isSome = true) ∧
    (lookupResource (PodRequests zeroExamplePod none) "cpu").isSome = true ∧
    (lookupResource (PodLimits zeroExamplePod none) "mem").isSome = true ∧
    lookupResource (PodRequests zeroExamplePod none) "cpu" = some 0 :=
  ⟨by decide,
   (podRequests_podLimits_keep_zero_keys zeroExamplePod none "cpu").1 (by decide),
   (podRequests_podLimits_keep_zero_keys zeroExamplePod none "mem").2 (by decide),
   by decide⟩

/-- C10: the results of `PodRequests` and `PodLimits` do not depend on
what the reuse map contained before the call. -/
theorem podRequests_podLimits_reuse_oblivious (pod : Pod)
    (o : PodResourcesOptions) (r1 r2 : ResourceList) :
    PodRequests pod (some { o with reuse := some r1 }) =
      PodRequests pod (some { o with reuse := some r2 }) ∧
    PodLimits pod (some { o with reuse := some r1 }) =
      PodLimits pod (some { o with reuse := some r2 }) :=
  ⟨podRequests_reuse_irrelevant pod o _ _, podLimits_reuse_irrelevant pod o _ _⟩

end K8s
